import Mathlib

/-!
Verification of the audio-drain DSP building blocks.

Two components are modelled:
* the adaptive LMS echo-cancellation engine (`drain::Lms`): only its header
  (declarations) is present in the sources, so the bodies of `processValue`,
  `process`, `reset`, `setFilterSize` and `setMu` are modelled faithfully
  from the specification text;
* the channel remapping stage (`drain::ChannelReorder::process`), whose full
  source is present and is embedded directly.

Real-valued audio samples are embedded as rationals, which keeps every
definition executable and every concrete evaluation decidable.
-/

namespace Drain

/-- Modelled from the spec: the state of the LMS engine (`drain::Lms`,
whose member definitions are missing from the sources).  `m_filter` is the
FilterState (ordered coefficient sequence), `m_feedBack` the HistoryBuffer
(most-recent-first sliding window of reference samples), `m_mu` the
adaptation rate. -/
structure Lms where
  m_filter : List ℚ
  m_feedBack : List ℚ
  m_mu : ℚ
  deriving Repr, DecidableEq

/-- Modelled from the spec: the constructor `drain::Lms::Lms` (body missing
from the sources).  FilterState and HistoryBuffer start empty (equal
lengths); the adaptation rate starts at a default value. -/
def lmsInit : Lms := ⟨[], [], 0⟩

/-- Modelled from the spec: `drain::Lms::reset` (body missing from the
sources) zeroes FilterState and HistoryBuffer in place without changing
their length. -/
def Lms.reset (s : Lms) : Lms :=
  ⟨List.replicate s.m_filter.length 0, List.replicate s.m_feedBack.length 0, s.m_mu⟩

/-- Modelled from the spec: `drain::Lms::setMu` (body missing from the
sources) stores the adaptation rate verbatim, no clamping. -/
def Lms.setMu (s : Lms) (v : ℚ) : Lms :=
  ⟨s.m_filter, s.m_feedBack, v⟩

/-- Resize semantics of a C++ vector: keep the first `n` existing entries,
zero-fill the new ones. -/
def vecResize (l : List ℚ) (n : ℕ) : List ℚ :=
  l.take n ++ List.replicate (n - l.length) 0

/-- Modelled from the spec: `drain::Lms::setFilterSize(size_t)` (body
missing from the sources) resizes FilterState and HistoryBuffer to
`_nbSample` entries, zero-filling new entries. -/
def Lms.setFilterSizeN (s : Lms) (n : ℕ) : Lms :=
  ⟨vecResize s.m_filter n, vecResize s.m_feedBack n, s.m_mu⟩

/-- Modelled from the spec: `drain::Lms::setFilterSize(size_t,
std11::chrono::microseconds)` (body missing from the sources) computes
`sampleCount = round(sampleRate * duration)` (the duration being given in
microseconds) and delegates to the sample-count form. -/
def Lms.setFilterSizeRate (s : Lms) (sampleRate : ℕ) (timeUs : ℕ) : Lms :=
  s.setFilterSizeN (Int.toNat (round ((sampleRate * timeUs : ℚ) / 1000000)))

/-- The convolution loop of the per-sample algorithm: dot product of the
filter with the history window. -/
def lmsDot : List ℚ → List ℚ → ℚ
  | [], _ => 0
  | _ :: _, [] => 0
  | w :: ws, x :: xs => w * x + lmsDot ws xs

/-- Modelled from the spec: `drain::Lms::processValue` (body missing from
the sources).  On arrival of reference sample `x` and microphone sample
`d`, the window of the last `N` reference samples is `x` followed by the
previous history truncated to `N` entries; the predicted echo is the dot
product of the filter with that window, the emitted output is
`e = d - y`, each coefficient is updated by `w[k] + 2*mu*e*x(n-k)`, and
the window (new sample pushed, oldest evicted) becomes the new history. -/
def Lms.processValue (s : Lms) (x d : ℚ) : Lms × ℚ :=
  let window := (x :: s.m_feedBack).take s.m_filter.length
  let y := lmsDot s.m_filter window
  let e := d - y
  let newFilter := List.zipWith (fun wk xk => wk + 2 * s.m_mu * e * xk) s.m_filter window
  (⟨newFilter, window, s.m_mu⟩, e)

/-- Modelled from the spec: the per-sample loop of the floating-point
`drain::Lms::process` (body missing from the sources): each
feedback/microphone pair is processed in lock-step by `processValue` and
one output sample is emitted per input pair. -/
def Lms.processFloat (s : Lms) : List (ℚ × ℚ) → Lms × List ℚ
  | [] => (s, [])
  | (x, d) :: rest =>
    let r := s.processValue x d
    let r2 := r.1.processFloat rest
    (r2.1, r.2 :: r2.2)

/-- Normalization of a 16-bit integer sample to floating range, dividing
by 32768. -/
def norm16 (v : ℤ) : ℚ := (v : ℚ) / 32768

/-- Re-quantization of a floating error sample: scale back, round, then
saturate to the representable int16 range. -/
def quant16 (v : ℚ) : ℤ := max (-32768) (min 32767 (round (v * 32768)))

/-- Modelled from the spec: the per-sample loop of the 16-bit integer
`drain::Lms::process` (body missing from the sources): each input sample
is normalized by dividing by 32768, the floating per-sample algorithm
runs, and the floating error is re-quantized (rounded, then saturated)
before being written to the output. -/
def Lms.processInt16 (s : Lms) : List (ℤ × ℤ) → Lms × List ℤ
  | [] => (s, [])
  | (x, d) :: rest =>
    let r := s.processValue (norm16 x) (norm16 d)
    let r2 := r.1.processInt16 rest
    (r2.1, quant16 r.2 :: r2.2)

/-- Modelled from the spec: the floating-point buffer entry point
`drain::Lms::process(float*, const float*, const float*, int32_t)` (body
missing from the sources).  A zero `_nbSample` is a no-op returning
success; a null output, feedback or microphone buffer is rejected with a
failure result without dereferencing the buffers; otherwise `_nbSample`
sample pairs are processed in lock-step.  Buffers are modelled as total
index functions; a null pointer is `none` (for the output buffer, a
boolean flag, since the model returns the written samples). -/
def Lms.processFloatCall (s : Lms) (outNull : Bool) (fb mic : Option (ℕ → ℚ))
    (nb : ℕ) : Bool × List ℚ × Lms :=
  if nb = 0 then (true, [], s)
  else
    match outNull, fb, mic with
    | false, some f, some m =>
      let r := s.processFloat ((List.range nb).map (fun i => (f i, m i)))
      (true, r.2, r.1)
    | _, _, _ => (false, [], s)

/-- Modelled from the spec: the 16-bit integer buffer entry point
`drain::Lms::process(int16_t*, const int16_t*, const int16_t*, int32_t)`
(body missing from the sources), with the same guard structure as the
floating-point form. -/
def Lms.processInt16Call (s : Lms) (outNull : Bool) (fb mic : Option (ℕ → ℤ))
    (nb : ℕ) : Bool × List ℤ × Lms :=
  if nb = 0 then (true, [], s)
  else
    match outNull, fb, mic with
    | false, some f, some m =>
      let r := s.processInt16 ((List.range nb).map (fun i => (f i, m i)))
      (true, r.2, r.1)
    | _, _, _ => (false, [], s)

/-- The audio channel identifiers (`audio::channel_*`) used by the channel
maps of `drain::ChannelReorder`. -/
inductive Channel where
  | frontLeft
  | frontRight
  | frontCenter
  | rearLeft
  | rearRight
  | lfe
  deriving Repr, DecidableEq

/-- The `convertId` computation of `drain::ChannelReorder::process` for one
output channel position: if the input map is exactly the single channel
`frontCenter`, channel 0 is used; otherwise the first position of the
output channel id in the input map; `none` stands for `convertId == -1`. -/
def convertIdFor (inMap : List Channel) (outCh : Channel) : Option ℕ :=
  if inMap = [Channel.frontCenter] then some 0
  else List.findIdx? (fun c => c = outCh) inMap

/-- One cell update of the flat output buffer (`out[pos] = v`). -/
def writeCell {α : Type} (buf : ℕ → α) (pos : ℕ) (v : α) : ℕ → α :=
  fun idx => if idx = pos then v else buf idx

/-- The inner frame loop of `drain::ChannelReorder::process`: for
`iii < n`, write `src iii` at `out[iii*outSize + k]`. -/
def writeFrames {α : Type} (outSize k : ℕ) (src : ℕ → α) : ℕ → (ℕ → α) → (ℕ → α)
  | 0, buf => buf
  | n + 1, buf => writeCell (writeFrames outSize k src n buf) (n * outSize + k) (src n)

/-- The outer channel loop of `drain::ChannelReorder::process`, over output
channel positions `kkk < k`: compute `convertId` and either zero-fill the
channel or copy input channel `convertId` frame by frame.  The sample type
`α` and its zero value `z` abstract the sample-format branches, whose
bodies are identical up to the sample type. -/
def reorderLoop {α : Type} (inMap outMap : List Channel) (inBuf : ℕ → α) (z : α)
    (nbChunk : ℕ) : ℕ → (ℕ → α) → (ℕ → α)
  | 0, buf => buf
  | k + 1, buf =>
    let buf' := reorderLoop inMap outMap inBuf z nbChunk k buf
    match convertIdFor inMap (outMap.getD k Channel.frontCenter) with
    | none => writeFrames outMap.length k (fun _ => z) nbChunk buf'
    | some j => writeFrames outMap.length k (fun i => inBuf (i * inMap.length + j)) nbChunk buf'

/-- The full data copy of `drain::ChannelReorder::process`: the channel
loop run over every output channel position. -/
def reorderData {α : Type} (inMap outMap : List Channel) (inBuf : ℕ → α) (z : α)
    (nbChunk : ℕ) (buf : ℕ → α) : ℕ → α :=
  reorderLoop inMap outMap inBuf z nbChunk outMap.length buf

/-- The configuration of `drain::ChannelReorder` that
`ChannelReorder::process` reads: the `m_needProcess` flag set by
`configurationChange`, and the input/output channel maps. -/
structure ReorderState where
  needProcess : Bool
  inMap : List Channel
  outMap : List Channel

/-- Where the returned `_output` pointer points after
`drain::ChannelReorder::process`: at the caller's `_input` buffer, or at
the internal `m_outputData` storage. -/
inductive PtrDest where
  | inputPtr
  | internalPtr
  deriving Repr, DecidableEq

/-- Shallow embedding of `drain::ChannelReorder::process`.  `_outputNbChunk`
is first set to `_inputNbChunk`; if no processing is needed the input
pointer is passed through with success; a null input (`none`) is then
rejected with `false` and output chunk count 0; otherwise the data is
remapped into the internal buffer.  Returns (success flag, `_output`
destination, `_outputNbChunk`, resulting internal buffer contents). -/
def channelReorderProcess {α : Type} (st : ReorderState) (input : Option (ℕ → α))
    (z : α) (inputNbChunk : ℕ) (oldData : ℕ → α) : Bool × PtrDest × ℕ × (ℕ → α) :=
  if st.needProcess = false then (true, PtrDest.inputPtr, inputNbChunk, oldData)
  else
    match input with
    | none => (false, PtrDest.internalPtr, 0, oldData)
    | some inBuf =>
      (true, PtrDest.internalPtr, inputNbChunk,
        reorderData st.inMap st.outMap inBuf z inputNbChunk oldData)

/-- The engine-interface operations, for stating state invariants over
arbitrary call sequences starting at construction. -/
inductive LmsOp where
  | setSizeN (n : ℕ)
  | setSizeRate (rate timeUs : ℕ)
  | setMuOp (v : ℚ)
  | resetOp
  | procFloat (outNull : Bool) (fb mic : Option (ℕ → ℚ)) (nb : ℕ)
  | procInt16 (outNull : Bool) (fb mic : Option (ℕ → ℤ)) (nb : ℕ)

/-- The state transition of one interface operation. -/
def applyOp (s : Lms) : LmsOp → Lms
  | .setSizeN n => s.setFilterSizeN n
  | .setSizeRate r t => s.setFilterSizeRate r t
  | .setMuOp v => s.setMu v
  | .resetOp => s.reset
  | .procFloat o fb mic nb => (s.processFloatCall o fb mic nb).2.2
  | .procInt16 o fb mic nb => (s.processInt16Call o fb mic nb).2.2

/-- The state after a sequence of interface operations, starting from the
freshly constructed engine. -/
def runOps (ops : List LmsOp) : Lms := ops.foldl applyOp lmsInit

/-- The FilterState / HistoryBuffer length invariant. -/
def lmsInv (s : Lms) : Prop := s.m_filter.length = s.m_feedBack.length

instance (s : Lms) : Decidable (lmsInv s) := by
  unfold lmsInv
  infer_instance

theorem vecResize_length (l : List ℚ) (n : ℕ) : (vecResize l n).length = n := by
  simp [vecResize]
  omega

theorem processValue_window_length (s : Lms) (x d : ℚ) (h : lmsInv s) :
    (s.processValue x d).1.m_filter.length = s.m_filter.length
      ∧ (s.processValue x d).1.m_feedBack.length = s.m_filter.length := by
  unfold lmsInv at h
  simp [Lms.processValue]
  omega

theorem lmsInv_processValue (s : Lms) (x d : ℚ) (h : lmsInv s) :
    lmsInv (s.processValue x d).1 := by
  have h2 := processValue_window_length s x d h
  unfold lmsInv
  omega

theorem lmsInv_processFloat (s : Lms) (l : List (ℚ × ℚ)) (h : lmsInv s) :
    lmsInv (s.processFloat l).1 := by
  induction l generalizing s with
  | nil => simpa [Lms.processFloat]
  | cons p rest ih =>
    obtain ⟨x, d⟩ := p
    simpa [Lms.processFloat] using ih _ (lmsInv_processValue s x d h)

theorem lmsInv_processInt16 (s : Lms) (l : List (ℤ × ℤ)) (h : lmsInv s) :
    lmsInv (s.processInt16 l).1 := by
  induction l generalizing s with
  | nil => simpa [Lms.processInt16]
  | cons p rest ih =>
    obtain ⟨x, d⟩ := p
    simpa [Lms.processInt16] using ih _ (lmsInv_processValue s _ _ h)

theorem lmsInv_applyOp (s : Lms) (op : LmsOp) (h : lmsInv s) :
    lmsInv (applyOp s op) := by
  cases op with
  | setSizeN n =>
    simp [applyOp, lmsInv, Lms.setFilterSizeN, vecResize_length]
  | setSizeRate r t =>
    simp [applyOp, lmsInv, Lms.setFilterSizeRate, Lms.setFilterSizeN, vecResize_length]
  | setMuOp v =>
    simpa [applyOp, lmsInv, Lms.setMu] using h
  | resetOp =>
    simpa [applyOp, lmsInv, Lms.reset] using h
  | procFloat o fb mic nb =>
    simp only [applyOp, Lms.processFloatCall]
    split
    · exact h
    · split
      · exact lmsInv_processFloat _ _ h
      · exact h
  | procInt16 o fb mic nb =>
    simp only [applyOp, Lms.processInt16Call]
    split
    · exact h
    · split
      · exact lmsInv_processInt16 _ _ h
      · exact h

theorem lmsInv_foldl (ops : List LmsOp) (s : Lms) (h : lmsInv s) :
    lmsInv (ops.foldl applyOp s) := by
  induction ops generalizing s with
  | nil => simpa
  | cons op rest ih => exact ih _ (lmsInv_applyOp s op h)

/-- Claim C2: for every sequence of interface operations (construction,
either `setFilterSize` form, `setMu`, `reset`, either `process` form), the
length of FilterState equals the length of HistoryBuffer before and after
each operation: every state reachable from construction by a sequence of
operations satisfies the length invariant (states "before" an operation
are reached by the prefix sequence). -/
theorem lms_length_invariant (ops : List LmsOp) : lmsInv (runOps ops) :=
  lmsInv_foldl ops lmsInit (by simp [lmsInv, lmsInit])

/-- Claim C5: `reset` zeroes every entry of FilterState and HistoryBuffer
without changing either length, and is idempotent. -/
theorem lms_reset_zeroes_and_idempotent (s : Lms) :
    (s.reset.m_filter.length = s.m_filter.length
      ∧ s.reset.m_feedBack.length = s.m_feedBack.length)
    ∧ (∀ v ∈ s.reset.m_filter, v = 0)
    ∧ (∀ v ∈ s.reset.m_feedBack, v = 0)
    ∧ s.reset.reset = s.reset := by
  refine ⟨⟨?_, ?_⟩, ?_, ?_, ?_⟩
  · simp [Lms.reset]
  · simp [Lms.reset]
  · intro v hv
    exact List.eq_of_mem_replicate hv
  · intro v hv
    exact List.eq_of_mem_replicate hv
  · simp [Lms.reset]

theorem processInt16_eq_float_comp (s : Lms) (l : List (ℤ × ℤ)) :
    s.processInt16 l
      = ((s.processFloat (l.map (fun p => (norm16 p.1, norm16 p.2)))).1,
         (s.processFloat (l.map (fun p => (norm16 p.1, norm16 p.2)))).2.map quant16) := by
  induction l generalizing s with
  | nil => simp [Lms.processInt16, Lms.processFloat]
  | cons p rest ih =>
    obtain ⟨x, d⟩ := p
    simp [Lms.processInt16, Lms.processFloat, ih]

/-- Claim C3: the 16-bit integer process form equals the floating-point
process form composed with the boundary conversions: inputs normalized by
dividing by 32768, the floating error re-quantized by rounding then
saturating to the int16 range; this holds sample-loop-wise and for the
guarded buffer entry points (same success flag, same final state, outputs
mapped through the quantizer). -/
theorem lms_int16_refines_float (s : Lms) (l : List (ℤ × ℤ)) (o : Bool)
    (fb mic : Option (ℕ → ℤ)) (nb : ℕ) :
    s.processInt16 l
      = ((s.processFloat (l.map (fun p => (norm16 p.1, norm16 p.2)))).1,
         (s.processFloat (l.map (fun p => (norm16 p.1, norm16 p.2)))).2.map quant16)
    ∧ s.processInt16Call o fb mic nb
      = ((s.processFloatCall o (fb.map (fun f i => norm16 (f i)))
            (mic.map (fun m i => norm16 (m i))) nb).1,
         (s.processFloatCall o (fb.map (fun f i => norm16 (f i)))
            (mic.map (fun m i => norm16 (m i))) nb).2.1.map quant16,
         (s.processFloatCall o (fb.map (fun f i => norm16 (f i)))
            (mic.map (fun m i => norm16 (m i))) nb).2.2) := by
  have core := processInt16_eq_float_comp
  refine ⟨core s l, ?_⟩
  unfold Lms.processInt16Call Lms.processFloatCall
  split
  · simp
  · cases o with
    | true => cases fb <;> cases mic <;> simp
    | false =>
      cases fb with
      | none => cases mic <;> simp
      | some f =>
        cases mic with
        | none => simp
        | some m => simp [core, List.map_map, Function.comp_def]

theorem quant16_bounds (v : ℚ) : -32768 ≤ quant16 v ∧ quant16 v ≤ 32767 := by
  unfold quant16
  exact ⟨le_max_left _ _, max_le (by norm_num) (min_le_left _ _)⟩

theorem processInt16_outputs_bounded (s : Lms) (l : List (ℤ × ℤ)) (v : ℤ)
    (hv : v ∈ (s.processInt16 l).2) : -32768 ≤ v ∧ v ≤ 32767 := by
  induction l generalizing s with
  | nil => simp [Lms.processInt16] at hv
  | cons p rest ih =>
    obtain ⟨x, d⟩ := p
    simp only [Lms.processInt16, List.mem_cons] at hv
    rcases hv with h | h
    · exact h ▸ quant16_bounds _
    · exact ih _ h

/-- Claim C7: every output sample written by the 16-bit integer process
form lies in the int16 range: the saturation in the re-quantizer bounds
it, so no out-of-range value can reach the output. -/
theorem lms_int16_call_saturates (s : Lms) (o : Bool) (fb mic : Option (ℕ → ℤ))
    (nb : ℕ) (v : ℤ) (hv : v ∈ (s.processInt16Call o fb mic nb).2.1) :
    -32768 ≤ v ∧ v ≤ 32767 := by
  simp only [Lms.processInt16Call] at hv
  split at hv
  · simp at hv
  · split at hv
    · exact processInt16_outputs_bounded _ _ _ hv
    · simp at hv

theorem processValue_empty_filter (s : Lms) (x d : ℚ) (h : s.m_filter = []) :
    s.processValue x d = (⟨[], [], s.m_mu⟩, d) := by
  simp [Lms.processValue, h, lmsDot]

theorem processFloat_empty_filter (s : Lms) (l : List (ℚ × ℚ)) (h : s.m_filter = []) :
    (s.processFloat l).2 = l.map Prod.snd := by
  induction l generalizing s with
  | nil => simp [Lms.processFloat]
  | cons p rest ih =>
    obtain ⟨x, d⟩ := p
    simp [Lms.processFloat, processValue_empty_filter s x d h,
      ih ⟨[], [], s.m_mu⟩ rfl]

theorem quant16_norm16 (v : ℤ) (h1 : -32768 ≤ v) (h2 : v ≤ 32767) :
    quant16 (norm16 v) = v := by
  unfold quant16 norm16
  have hc : (v : ℚ) / 32768 * 32768 = (v : ℚ) := by
    field_simp
  rw [hc, round_intCast]
  omega

/-- Claim C4: with filter length zero, every call to `process` (both
forms, with valid buffers, the integer samples in the int16 range)
returns success and copies the microphone input directly to the output
unchanged. -/
theorem lms_zero_filter_passthrough (s : Lms) (f m : ℕ → ℚ) (g w : ℕ → ℤ) (nb : ℕ)
    (hlen : s.m_filter.length = 0)
    (hrange : ∀ i, -32768 ≤ w i ∧ w i ≤ 32767) :
    (s.processFloatCall false (some f) (some m) nb).1 = true
    ∧ (s.processFloatCall false (some f) (some m) nb).2.1 = (List.range nb).map m
    ∧ (s.processInt16Call false (some g) (some w) nb).1 = true
    ∧ (s.processInt16Call false (some g) (some w) nb).2.1 = (List.range nb).map w := by
  have hnil : s.m_filter = [] := List.length_eq_zero.mp hlen
  refine ⟨?_, ?_, ?_, ?_⟩
  · simp only [Lms.processFloatCall]
    split <;> rfl
  · simp only [Lms.processFloatCall]
    split
    · simp_all
    · simp [processFloat_empty_filter _ _ hnil, List.map_map, Function.comp_def]
  · simp only [Lms.processInt16Call]
    split <;> rfl
  · simp only [Lms.processInt16Call]
    split
    · simp_all
    · simp only [processInt16_eq_float_comp, List.map_map,
        processFloat_empty_filter _ _ hnil, Function.comp_def]
      exact List.map_congr_left fun i _ => quant16_norm16 (w i) (hrange i).1 (hrange i).2

/-- Claim C6: the rate/duration form of `setFilterSize` computes
`sampleCount = round(sampleRate * duration)` (duration in microseconds,
hence the division by 1000000 when scaling to seconds) and behaves
exactly as the sample-count form at that count: same resulting state,
and both FilterState and HistoryBuffer get that length. -/
theorem lms_setFilterSizeRate_delegates (s : Lms) (rate t : ℕ)
    (h1 : 0 < rate) (h2 : 0 < t) :
    s.setFilterSizeRate rate t
        = s.setFilterSizeN (Int.toNat (round ((rate * t : ℚ) / 1000000)))
    ∧ (s.setFilterSizeRate rate t).m_filter.length
        = Int.toNat (round ((rate * t : ℚ) / 1000000))
    ∧ (s.setFilterSizeRate rate t).m_feedBack.length
        = Int.toNat (round ((rate * t : ℚ) / 1000000)) := by
  refine ⟨rfl, ?_, ?_⟩ <;>
    simp [Lms.setFilterSizeRate, Lms.setFilterSizeN, vecResize_length]

/-- Claim C8: both `process` entry points return success and leave the
engine state untouched with nothing written when called with zero
`sampleCount`; and when the output flag marks a null output buffer or
the feedback or microphone buffer is absent (null), they return a
failure result with the state untouched and nothing written, whatever
the contents behind the non-null buffers. -/
theorem lms_process_call_guards (s : Lms) (o : Bool) (fb mic : Option (ℕ → ℚ))
    (o2 : Bool) (fb2 mic2 : Option (ℕ → ℤ)) (nb : ℕ) :
    (nb = 0 → s.processFloatCall o fb mic nb = (true, [], s)
      ∧ s.processInt16Call o2 fb2 mic2 nb = (true, [], s))
    ∧ (nb ≠ 0 → o = true ∨ fb = none ∨ mic = none →
      s.processFloatCall o fb mic nb = (false, [], s))
    ∧ (nb ≠ 0 → o2 = true ∨ fb2 = none ∨ mic2 = none →
      s.processInt16Call o2 fb2 mic2 nb = (false, [], s)) := by
  refine ⟨fun h => ?_, fun h hn => ?_, fun h hn => ?_⟩
  · simp [Lms.processFloatCall, Lms.processInt16Call, h]
  · cases o with
    | true => cases fb <;> cases mic <;> simp [Lms.processFloatCall, h]
    | false =>
      cases fb with
      | none => cases mic <;> simp [Lms.processFloatCall, h]
      | some f =>
        cases mic with
        | none => simp [Lms.processFloatCall, h]
        | some m => simp at hn
  · cases o2 with
    | true => cases fb2 <;> cases mic2 <;> simp [Lms.processInt16Call, h]
    | false =>
      cases fb2 with
      | none => cases mic2 <;> simp [Lms.processInt16Call, h]
      | some f =>
        cases mic2 with
        | none => simp [Lms.processInt16Call, h]
        | some m => simp at hn

theorem lmsDot_eq_rangeSum (w xs : List ℚ) (h : xs.length = w.length) :
    lmsDot w xs
      = ((List.range w.length).map (fun k => w.getD k 0 * xs.getD k 0)).sum := by
  induction w generalizing xs with
  | nil => simp [lmsDot]
  | cons a l ih =>
    cases xs with
    | nil => simp at h
    | cons b ys =>
      simp only [List.length_cons] at h
      rw [List.length_cons, List.range_succ_eq_map, lmsDot]
      simp only [List.map_cons, List.map_map, List.sum_cons, Function.comp_def,
        List.getD_cons_zero, List.getD_cons_succ]
      rw [ih ys (by omega)]

/-- Claim C1: for each processed sample, with filter length `N`, current
coefficients `w` and the window of the last `N` reference samples (the
new sample followed by the retained history), the per-sample step emits
`e(n) = d(n) - y(n)` with `y(n)` the dot product of `w` with the window,
updates every coefficient `k < N` to `w[k] + 2*mu*e(n)*x(n-k)`, and the
new history is the new sample pushed in with the oldest entry evicted. -/
theorem lms_processValue_correct (s : Lms) (x d : ℚ) (N : ℕ) (window : List ℚ) (e : ℚ)
    (hf : s.m_filter.length = N) (hb : s.m_feedBack.length = N)
    (hw : window = (x :: s.m_feedBack).take N)
    (he : e = d - ((List.range N).map
        (fun k => s.m_filter.getD k 0 * window.getD k 0)).sum) :
    (s.processValue x d).2 = e
    ∧ (s.processValue x d).1.m_filter.length = N
    ∧ (∀ k, k < N → (s.processValue x d).1.m_filter.getD k 0
        = s.m_filter.getD k 0 + 2 * s.m_mu * e * window.getD k 0)
    ∧ (s.processValue x d).1.m_feedBack = window
    ∧ (0 < N → (s.processValue x d).1.m_feedBack = x :: s.m_feedBack.dropLast) := by
  subst hw
  have hunf : s.processValue x d
      = (⟨List.zipWith (fun wk xk => wk + 2 * s.m_mu *
            (d - lmsDot s.m_filter ((x :: s.m_feedBack).take s.m_filter.length)) * xk)
            s.m_filter ((x :: s.m_feedBack).take s.m_filter.length),
          (x :: s.m_feedBack).take s.m_filter.length, s.m_mu⟩,
         d - lmsDot s.m_filter ((x :: s.m_feedBack).take s.m_filter.length)) := rfl
  have hwin : ((x :: s.m_feedBack).take N).length = N := by
    simp [hb]
  have hE : d - lmsDot s.m_filter ((x :: s.m_feedBack).take s.m_filter.length) = e := by
    rw [hf]
    rw [lmsDot_eq_rangeSum s.m_filter _ (by rw [hf]; exact hwin)]
    rw [hf]
    exact he.symm
  rw [hunf, hE]
  have hzlen : (List.zipWith (fun wk xk => wk + 2 * s.m_mu * e * xk) s.m_filter
      ((x :: s.m_feedBack).take s.m_filter.length)).length = N := by
    rw [List.length_zipWith, hf, hwin]
    omega
  refine ⟨rfl, hzlen, ?_, ?_, ?_⟩
  · intro k hk
    have hk1 : k < s.m_filter.length := by omega
    have hk2 : k < ((x :: s.m_feedBack).take N).length := by omega
    have hk3 : k < (List.zipWith (fun wk xk => wk + 2 * s.m_mu * e * xk) s.m_filter
        ((x :: s.m_feedBack).take s.m_filter.length)).length := by omega
    rw [List.getD_eq_getElem _ 0 hk3, List.getD_eq_getElem _ 0 hk1,
      List.getD_eq_getElem _ 0 hk2]
    rw [List.getElem_zipWith]
    simp [hf]
  · rw [hf]
  · intro hN
    obtain ⟨M, rfl⟩ : ∃ M, N = M + 1 := ⟨N - 1, by omega⟩
    rw [hf, List.take_succ_cons, List.dropLast_eq_take, hb]
    simp

/-- Claim C9: when `m_needProcess` is false, `ChannelReorder::process`
returns true, points the output at the input buffer and sets the output
chunk count to the input chunk count without inspecting the input — even
a null input passes through with success; the null-input failure path
(false, output chunk count 0) is reached only when processing is
needed. -/
theorem reorder_process_guard (st : ReorderState) (input : Option (ℕ → ℤ)) (z : ℤ)
    (n : ℕ) (old : ℕ → ℤ) :
    (st.needProcess = false →
      channelReorderProcess st input z n old = (true, PtrDest.inputPtr, n, old))
    ∧ (st.needProcess = true → input = none →
      channelReorderProcess st input z n old = (false, PtrDest.internalPtr, 0, old))
    ∧ ((channelReorderProcess st input z n old).1 = false →
      st.needProcess = true ∧ input = none) := by
  unfold channelReorderProcess
  cases hn : st.needProcess <;> cases input <;> simp

theorem channelPos_inj (L i i' k k' : ℕ) (hk : k < L) (hk' : k' < L)
    (h : i * L + k = i' * L + k') : i = i' ∧ k = k' := by
  have h1 : (i * L + k) % L = k := by
    rw [Nat.add_comm, Nat.add_mul_mod_self_right]
    exact Nat.mod_eq_of_lt hk
  have h2 : (i' * L + k') % L = k' := by
    rw [Nat.add_comm, Nat.add_mul_mod_self_right]
    exact Nat.mod_eq_of_lt hk'
  have hkk : k = k' := by rw [← h1, h, h2]
  subst hkk
  have hmul : i * L = i' * L := by omega
  exact ⟨Nat.eq_of_mul_eq_mul_right (by omega) hmul, rfl⟩

theorem writeFrames_read_same {α : Type} (L k : ℕ) (src : ℕ → α) (hL : 0 < L) :
    ∀ (n : ℕ) (buf : ℕ → α) (i : ℕ), i < n →
      writeFrames L k src n buf (i * L + k) = src i := by
  intro n
  induction n with
  | zero =>
    intro buf i hi
    omega
  | succ m ih =>
    intro buf i hi
    simp only [writeFrames, writeCell]
    by_cases hcase : i = m
    · subst hcase
      simp
    · have hne : i * L + k ≠ m * L + k := by
        intro hcontra
        exact hcase (Nat.eq_of_mul_eq_mul_right hL (by omega))
      rw [if_neg hne]
      exact ih buf i (by omega)

theorem writeFrames_read_other {α : Type} (L k k' : ℕ) (src : ℕ → α)
    (hk : k < L) (hk' : k' < L) (hne : k' ≠ k) :
    ∀ (n : ℕ) (buf : ℕ → α) (i : ℕ),
      writeFrames L k' src n buf (i * L + k) = buf (i * L + k) := by
  intro n
  induction n with
  | zero =>
    intro buf i
    rfl
  | succ m ih =>
    intro buf i
    simp only [writeFrames, writeCell]
    have hdiff : i * L + k ≠ m * L + k' := by
      intro hcontra
      exact hne (channelPos_inj L i m k k' hk hk' hcontra).2.symm
    rw [if_neg hdiff]
    exact ih buf i

theorem reorderLoop_read {α : Type} (inMap outMap : List Channel) (inBuf : ℕ → α)
    (z : α) (nbChunk : ℕ) (i k : ℕ) (hi : i < nbChunk) (hk : k < outMap.length) :
    ∀ (m : ℕ) (buf : ℕ → α), k < m → m ≤ outMap.length →
      reorderLoop inMap outMap inBuf z nbChunk m buf (i * outMap.length + k)
        = match convertIdFor inMap (outMap.getD k Channel.frontCenter) with
          | none => z
          | some j => inBuf (i * inMap.length + j) := by
  intro m
  induction m with
  | zero =>
    intro buf h1 h2
    omega
  | succ m ih =>
    intro buf h1 h2
    simp only [reorderLoop]
    by_cases hcase : k = m
    · subst hcase
      cases hcid : convertIdFor inMap (outMap.getD k Channel.frontCenter) with
      | none =>
        simp only [hcid]
        exact writeFrames_read_same outMap.length k _ (by omega) nbChunk _ i hi
      | some j =>
        simp only [hcid]
        exact writeFrames_read_same outMap.length k _ (by omega) nbChunk _ i hi
    · have hkm : k < m := by omega
      have hmL : m < outMap.length := by omega
      have hmk : m ≠ k := fun hh => hcase hh.symm
      cases hcid : convertIdFor inMap (outMap.getD m Channel.frontCenter) with
      | none =>
        simp only [hcid]
        rw [writeFrames_read_other outMap.length k m _ hk hmL hmk nbChunk _ i]
        exact ih _ hkm (by omega)
      | some j =>
        simp only [hcid]
        rw [writeFrames_read_other outMap.length k m _ hk hmL hmk nbChunk _ i]
        exact ih _ hkm (by omega)

/-- Claim C10: when processing is needed, the remapped output sample at
channel position `k` of any frame `i` is: a copy of input channel 0 of
the same frame when the input map is exactly the single channel
`frontCenter`; otherwise a copy of input channel `j` of the same frame
where `j` is the first position of the output channel id in the input
map; otherwise zero.  The statement is generic in the sample type, so it
covers every sample-format branch identically. -/
theorem reorder_sample_value {α : Type} (st : ReorderState) (inBuf : ℕ → α) (z : α)
    (nbChunk : ℕ) (old : ℕ → α) (i k : ℕ)
    (hp : st.needProcess = true) (hk : k < st.outMap.length) (hi : i < nbChunk) :
    (channelReorderProcess st (some inBuf) z nbChunk old).2.2.2 (i * st.outMap.length + k)
      = if st.inMap = [Channel.frontCenter] then inBuf (i * st.inMap.length)
        else
          match List.findIdx? (fun c => c = st.outMap.getD k Channel.frontCenter) st.inMap with
          | some j => inBuf (i * st.inMap.length + j)
          | none => z := by
  have hproc : (channelReorderProcess st (some inBuf) z nbChunk old).2.2.2
      = reorderData st.inMap st.outMap inBuf z nbChunk old := by
    simp [channelReorderProcess, hp]
  rw [hproc]
  unfold reorderData
  rw [reorderLoop_read st.inMap st.outMap inBuf z nbChunk i k hi hk st.outMap.length _ hk
    (le_refl _)]
  by_cases hfc : st.inMap = [Channel.frontCenter]
  · simp [convertIdFor, hfc]
  · simp only [convertIdFor, if_neg hfc]
    rcases List.findIdx? (fun c => decide (c = st.outMap.getD k Channel.frontCenter))
        st.inMap with _ | j <;> rfl

theorem lms_processValue_correct_witness :
    ((⟨[1, 2], [3, 4], 5⟩ : Lms).processValue 6 7).2 = -5 :=
  (lms_processValue_correct ⟨[1, 2], [3, 4], 5⟩ 6 7 2 [6, 3] (-5) rfl rfl
    (by norm_num) (by norm_num [List.range_succ])).1

theorem lms_zero_filter_passthrough_witness :
    ((⟨[], [], 0⟩ : Lms).processFloatCall false (some fun _ => 1)
      (some fun i => (i : ℚ)) 2).2.1 = (List.range 2).map (fun i => (i : ℚ)) :=
  (lms_zero_filter_passthrough ⟨[], [], 0⟩ (fun _ => 1) (fun i => (i : ℚ))
    (fun _ => 2) (fun _ => 3) 2 rfl (fun i => ⟨by norm_num, by norm_num⟩)).2.1

theorem lms_setFilterSizeRate_delegates_witness :
    ((⟨[], [], 0⟩ : Lms).setFilterSizeRate 2 500000).m_filter.length
      = Int.toNat (round ((((2 : ℕ) : ℚ) * ((500000 : ℕ) : ℚ)) / 1000000)) :=
  (lms_setFilterSizeRate_delegates ⟨[], [], 0⟩ 2 500000 (by norm_num) (by norm_num)).2.1

theorem lms_int16_call_saturates_witness : -32768 ≤ (0 : ℤ) ∧ (0 : ℤ) ≤ 32767 := by
  refine lms_int16_call_saturates ⟨[], [], 0⟩ false (some fun _ => 0)
    (some fun _ => 0) 1 0 ?_
  have h : ((⟨[], [], 0⟩ : Lms).processInt16Call false (some fun _ => 0)
      (some fun _ => 0) 1).2.1 = [0] := by
    simp [Lms.processInt16Call, Lms.processInt16, Lms.processValue, lmsDot,
      norm16, quant16, round_eq]
    norm_num
  rw [h]
  simp

theorem lms_process_call_guards_witness :
    (⟨[], [], 0⟩ : Lms).processFloatCall false (some fun _ => 0) (some fun _ => 0) 0
        = (true, [], (⟨[], [], 0⟩ : Lms))
    ∧ (⟨[], [], 0⟩ : Lms).processFloatCall true (some fun _ => 0) (some fun _ => 0) 3
        = (false, [], (⟨[], [], 0⟩ : Lms)) :=
  ⟨((lms_process_call_guards ⟨[], [], 0⟩ false (some fun _ => 0) (some fun _ => 0)
      false (some fun _ => 0) (some fun _ => 0) 0).1 rfl).1,
   (lms_process_call_guards ⟨[], [], 0⟩ true (some fun _ => 0) (some fun _ => 0)
      false (some fun _ => 0) (some fun _ => 0) 3).2.1 (by norm_num) (Or.inl rfl)⟩

theorem reorder_process_guard_witness :
    channelReorderProcess (⟨false, [], []⟩ : ReorderState) (none : Option (ℕ → ℤ))
        0 5 (fun _ => 7)
      = (true, PtrDest.inputPtr, 5, fun _ => 7) :=
  (reorder_process_guard ⟨false, [], []⟩ none 0 5 (fun _ => 7)).1 rfl

theorem reorder_sample_value_witness :
    (channelReorderProcess
        (⟨true, [Channel.frontLeft, Channel.frontRight],
          [Channel.frontRight, Channel.lfe]⟩ : ReorderState)
        (some fun idx => (idx : ℤ)) 0 2 (fun _ => 99)).2.2.2 2 = 3 :=
  (reorder_sample_value
    ⟨true, [Channel.frontLeft, Channel.frontRight], [Channel.frontRight, Channel.lfe]⟩
    (fun idx => (idx : ℤ)) 0 2 (fun _ => 99) 1 0 rfl (by decide) (by decide)).trans
    (by decide)
